import Mathlib

/-!
Verification of the linked-list library (src/linkedlist/src): the generic
exclusively-owned stack `good_stack.rs`, the String-specialised stack
`bad_stack.rs`, and the reference-counted persistent list `persitent_list.rs`.
Each Rust type and function is embedded as a Lean definition mirroring the
source; theorems settle the specification claims C1-C10.
-/

/-- Alias for the Lean list type, used as the mathematical sequence of
elements. Declared before the namespaces below shadow the name `List`. -/
abbrev ESeq (T : Type) : Type := List T

namespace GoodStack

mutual

/-- Embeds `type Link<T> = Option<Box<Node<T>>>` of good_stack.rs; the `Box`
indirection is transparent in a value semantics, and the two constructors
mirror `Option`. -/
inductive Link (T : Type) : Type where
  | none : Link T
  | some (node : Node T) : Link T

/-- Embeds `struct Node<T> { elem: T, next: Link<T> }` of good_stack.rs. -/
inductive Node (T : Type) : Type where
  | mk (elem : T) (next : Link T) : Node T

end

/-- Embeds `pub struct List<T> { head: Link<T> }`. -/
structure List (T : Type) : Type where
  head : Link T

variable {T : Type}

/-- Embeds `List::new`: `List { head: None }`. -/
def new : List T := ⟨.none⟩

/-- Embeds `List::push`: allocate a node holding `elem` whose next is the
taken current head, and make it the new head. -/
def push (l : List T) (elem : T) : List T :=
  ⟨.some (.mk elem l.head)⟩

/-- Embeds `List::pop`: take the head; on `None` return `None` with the list
left empty, otherwise advance the head to the node successor and return the
element. The returned pair is (result, list after the call). -/
def pop (l : List T) : Option T × List T :=
  match l.head with
  | .none => (Option.none, ⟨.none⟩)
  | .some (.mk e next) => (Option.some e, ⟨next⟩)

/-- Embeds `List::peek`: read the head element without removing it.
The `&T` view is modelled by the value it reads; `peek` takes `&self`
so it has no list-valued result. -/
def peek (l : List T) : Option T :=
  match l.head with
  | .none => Option.none
  | .some (.mk e _) => Option.some e

/-- Embeds `List::peek_mut` as an observation: the element the returned
`&mut T` view refers to, or `None` when the list is empty. -/
def peek_mut (l : List T) : Option T :=
  match l.head with
  | .none => Option.none
  | .some (.mk e _) => Option.some e

/-- Writing a value through the `&mut T` view returned by `List::peek_mut`:
the head element is replaced, the rest of the chain untouched. On an empty
list `peek_mut` returns `None` and no write happens. -/
def peek_mut_write (l : List T) (v : T) : List T :=
  match l.head with
  | .none => l
  | .some (.mk _ next) => ⟨.some (.mk v next)⟩

/-- Embeds the loop body of `impl Drop for List` in good_stack.rs:
`cur_link` walks the chain, each iteration unlinks and releases one boxed
node. `freed` counts the nodes released so far; the function is the loop,
written as tail recursion. -/
def dropLoop (cur : Link T) (freed : Nat) : Nat :=
  match cur with
  | .none => freed
  | .some (.mk _ next) => dropLoop next (freed + 1)

/-- Total number of nodes released by `Drop::drop`, starting from the taken
head with zero nodes freed. -/
def dropCount (l : List T) : Nat := dropLoop l.head 0

/-- Mathematical contents of a chain, head first. -/
def linkToList : Link T → ESeq T
  | .none => []
  | .some (.mk e next) => e :: linkToList next

/-- Mathematical contents of a list, head first. -/
def toList (l : List T) : ESeq T := linkToList l.head

/-- Push a whole sequence, first element first (so the last element of `xs`
ends up at the head). -/
def pushAll (l : List T) (xs : ESeq T) : List T := xs.foldl push l

/-- Perform `n` successive `pop` calls, collecting the results in order. -/
def popN (l : List T) : Nat → ESeq (Option T) × List T
  | 0 => ([], l)
  | n + 1 =>
    let p := pop l
    let q := popN p.2 n
    (p.1 :: q.1, q.2)

/-- Embeds `pub struct IntoIter<T>(List<T>)`: the by-value cursor owns the
list. -/
structure IntoIter (T : Type) : Type where
  list : List T

/-- Embeds `List::into_iter`. -/
def into_iter (l : List T) : IntoIter T := ⟨l⟩

/-- Embeds `Iterator::next` for `IntoIter`: `self.0.pop()`. Returns the
produced item together with the cursor state after the call. -/
def IntoIter.step (it : IntoIter T) : Option T × IntoIter T :=
  (pop it.list |>.1, ⟨(pop it.list).2⟩)

/-- Embeds `pub struct Iter<T> { next: Option<&Node<T>> }` (lifetime
parameter elided); the
shared reference is modelled by the referenced node chain itself. -/
structure Iter (T : Type) : Type where
  next : Link T

/-- Embeds `List::iter`: `Iter { next: self.head.as_deref() }`. -/
def iter (l : List T) : Iter T := ⟨l.head⟩

/-- Embeds `Iterator::next` for `Iter`: produce the current node element and
advance the cursor to its successor. -/
def Iter.step (it : Iter T) : Option T × Iter T :=
  match it.next with
  | .none => (Option.none, it)
  | .some (.mk e n) => (Option.some e, ⟨n⟩)

/-- Embeds `pub struct IterMut<T> { next: Option<&mut Node<T>> }` (lifetime
parameter elided);
the exclusive reference is modelled by the referenced node chain itself. -/
structure IterMut (T : Type) : Type where
  next : Link T

/-- Embeds `List::iter_mut`: `IterMut { next: self.head.as_deref_mut() }`. -/
def iter_mut (l : List T) : IterMut T := ⟨l.head⟩

/-- Embeds `Iterator::next` for `IterMut`: take the current node, produce a
view of its element and advance to its successor. -/
def IterMut.step (it : IterMut T) : Option T × IterMut T :=
  match it.next with
  | .none => (Option.none, it)
  | .some (.mk e n) => (Option.some e, ⟨n⟩)

/-- Results of `fuel` successive `Iter::next` calls, in order. -/
def iterResults (it : Iter T) : Nat → ESeq (Option T)
  | 0 => []
  | n + 1 => (it.step).1 :: iterResults (it.step).2 n

/-- Results of `fuel` successive `IterMut::next` calls, in order. -/
def iterMutResults (it : IterMut T) : Nat → ESeq (Option T)
  | 0 => []
  | n + 1 => (it.step).1 :: iterMutResults (it.step).2 n

/-- Results of `fuel` successive `IntoIter::next` calls, in order. -/
def intoIterResults (it : IntoIter T) : Nat → ESeq (Option T)
  | 0 => []
  | n + 1 => (it.step).1 :: intoIterResults (it.step).2 n

/-- The cursor state after `n` successive `IntoIter::next` calls. -/
def intoIterState (it : IntoIter T) : Nat → IntoIter T
  | 0 => it
  | n + 1 => intoIterState (it.step).2 n

end GoodStack

namespace BadStack

mutual

/-- Embeds `enum Link { Empty, More(Box<Node>) }` of bad_stack.rs. -/
inductive Link : Type where
  | Empty : Link
  | More (node : Node) : Link

/-- Embeds `struct Node { elem: String, next: Link }` of bad_stack.rs. -/
inductive Node : Type where
  | mk (elem : String) (next : Link) : Node

end

/-- Embeds `pub struct List { head: Link }` of bad_stack.rs. -/
structure List : Type where
  head : Link

/-- Embeds `List::new`: `List { head: Link::Empty }`. -/
def new : List := ⟨.Empty⟩

/-- Embeds `List::push` of bad_stack.rs: the current head is replaced by
`Link::Empty` via `mem::replace` and becomes the next of the new node. -/
def push (l : List) (elem : String) : List :=
  ⟨.More (.mk elem l.head)⟩

/-- Embeds `List::pop` of bad_stack.rs: replace the head with `Link::Empty`;
on `Empty` return `None`, otherwise reinstall the node successor as head and
return the element. The pair is (result, list after the call). -/
def pop (l : List) : Option String × List :=
  match l.head with
  | .Empty => (Option.none, ⟨.Empty⟩)
  | .More (.mk e next) => (Option.some e, ⟨next⟩)

/-- Mathematical contents of a bad_stack chain, head first. -/
def linkToList : Link → ESeq String
  | .Empty => []
  | .More (.mk e next) => e :: linkToList next

/-- Mathematical contents of a bad_stack list, head first. -/
def toList (l : List) : ESeq String := linkToList l.head

end BadStack

/-- A stack operation, used to compare the two stack implementations on a
common sequence of calls: either `push` of a given string, or `pop`. -/
inductive StackOp : Type where
  | push (s : String) : StackOp
  | pop : StackOp

/-- Runs a sequence of operations on the bad_stack list, collecting every
`pop` result in order together with the final list. -/
def runBad : ESeq StackOp → BadStack.List → ESeq (Option String) × BadStack.List
  | [], l => ([], l)
  | .push s :: ops, l => runBad ops (BadStack.push l s)
  | .pop :: ops, l =>
    let p := BadStack.pop l
    let q := runBad ops p.2
    (p.1 :: q.1, q.2)

/-- Runs a sequence of operations on the good_stack list at `T = String`,
collecting every `pop` result in order together with the final list. -/
def runGood : ESeq StackOp → GoodStack.List String →
    ESeq (Option String) × GoodStack.List String
  | [], l => ([], l)
  | .push s :: ops, l => runGood ops (GoodStack.push l s)
  | .pop :: ops, l =>
    let p := GoodStack.pop l
    let q := runGood ops p.2
    (p.1 :: q.1, q.2)

/-- Structure-preserving translation of a bad_stack chain to the good_stack
chain at `T = String` (`Empty` to `None`, `More` to `Some`). -/
def linkToGood : BadStack.Link → GoodStack.Link String
  | .Empty => .none
  | .More (.mk e next) => .some (.mk e (linkToGood next))

/-- Structure-preserving translation of a bad_stack list to a good_stack
list at `T = String`. -/
def toGood (l : BadStack.List) : GoodStack.List String := ⟨linkToGood l.head⟩

namespace Persistent

/-- A heap cell of the persistent list of persitent_list.rs: the payload of
`Rc<Node<T>>` — the node fields `elem` and `next` (a shared reference,
modelled as a node identifier) — together with the strong reference count
maintained by `Rc`. -/
structure Cell (T : Type) : Type where
  elem : T
  next : Option Nat
  rc : Nat

/-- The reference-counted store backing all persistent list values: a finite
association of node identifiers to cells. -/
abbrev Heap (T : Type) : Type := ESeq (Nat × Cell T)

/-- Embeds `pub struct List<T> { head: Link<T> }` of persitent_list.rs with
`type Link<T> = Option<Rc<Node<T>>>`; the `Rc` is a node identifier into the
heap. -/
structure List (T : Type) : Type where
  head : Option Nat

variable {T : Type}

/-- Looks a node identifier up in the heap. -/
def lookup : Heap T → Nat → Option (Cell T)
  | [], _ => Option.none
  | (k, c) :: rest, id => if k = id then Option.some c else lookup rest id

/-- Removes a node from the heap: deallocation of the `Rc` payload. -/
def erase : Heap T → Nat → Heap T
  | [], _ => []
  | (k, c) :: rest, id =>
    if k = id then erase rest id else (k, c) :: erase rest id

/-- Decrements the strong count of one node: dropping one `Rc` handle that
is not the last owner. -/
def decRc : Heap T → Nat → Heap T
  | [], _ => []
  | (k, c) :: rest, id =>
    if k = id then (k, ⟨c.elem, c.next, c.rc - 1⟩) :: decRc rest id
    else (k, c) :: decRc rest id

/-- Increments the strong count of one node: `Clone` of one `Rc` handle. -/
def incRcAt : Heap T → Nat → Heap T
  | [], _ => []
  | (k, c) :: rest, id =>
    if k = id then (k, ⟨c.elem, c.next, c.rc + 1⟩) :: incRcAt rest id
    else (k, c) :: incRcAt rest id

/-- Embeds `Option::<Rc<..>>::clone` on a link: increments the count of the
referenced node when the link is nonempty. -/
def incRc (h : Heap T) : Option Nat → Heap T
  | Option.none => h
  | Option.some id => incRcAt h id

/-- Embeds `List::new`: `List { head: None }`; no heap effect. -/
def new : List T := ⟨Option.none⟩

/-- Embeds `List::prepend`: allocate a fresh node (`Rc::new`, count 1)
holding `elem` and a clone of the receiver head link, and return the list
headed by it. `fresh` is the identifier of the new allocation, assumed
unused. The pair is (heap after the call, returned list). -/
def prepend (h : Heap T) (l : List T) (elem : T) (fresh : Nat) :
    Heap T × List T :=
  ((fresh, ⟨elem, l.head, 1⟩) :: incRc h l.head, ⟨Option.some fresh⟩)

/-- Embeds `List::tail`: `self.head.as_ref().and_then(|node| node.next.clone())`
— a new list whose head is a clone of the successor link of the receiver
head node, or the empty list when the receiver is empty. The pair is
(heap after the call, returned list). -/
def tail (h : Heap T) (l : List T) : Heap T × List T :=
  match l.head with
  | Option.none => (h, ⟨Option.none⟩)
  | Option.some id =>
    match lookup h id with
    | Option.none => (h, ⟨Option.none⟩)
    | Option.some c => (incRc h c.next, ⟨c.next⟩)

/-- Embeds `List::head`: `self.head.as_ref().map(|node| &node.elem)` — a
read-only view of the first element. Named `headOf` because `head` is the
structure field. -/
def headOf (h : Heap T) (l : List T) : Option T :=
  match l.head with
  | Option.none => Option.none
  | Option.some id =>
    match lookup h id with
    | Option.none => Option.none
    | Option.some c => Option.some c.elem

/-- Embeds the loop of `impl Drop for List` in persitent_list.rs: walk the
chain from the taken head; at each node, `Rc::try_unwrap` succeeds exactly
when the count is 1, in which case the node is deallocated and the walk
continues with its taken successor; otherwise the dropped handle merely
decrements the count and the loop breaks. `fuel` bounds the iteration for
totality; one unit is spent per loop iteration. -/
def dropLoop : Nat → Heap T → Option Nat → Heap T
  | 0, h, _ => h
  | _ + 1, h, Option.none => h
  | fuel + 1, h, Option.some id =>
    match lookup h id with
    | Option.none => h
    | Option.some c =>
      if c.rc = 1 then dropLoop fuel (erase h id) c.next
      else decRc h id

/-- Heap after dropping a persistent list value. -/
def dropList (fuel : Nat) (h : Heap T) (l : List T) : Heap T :=
  dropLoop fuel h l.head

/-- The element sequence read through a list head by the `Iter` cursor of
persitent_list.rs (`head`/`tail` read the same cells): follow `next` links,
collecting elements, for at most `fuel` nodes. -/
def readChain (h : Heap T) : Nat → Option Nat → ESeq T
  | 0, _ => []
  | _ + 1, Option.none => []
  | fuel + 1, Option.some id =>
    match lookup h id with
    | Option.none => []
    | Option.some c => c.elem :: readChain h fuel c.next

/-- The node identifiers visited by following `next` links from a head, for
at most `fuel` nodes; an identifier is recorded as visited even when its
lookup fails (the walk reaches it and stops there). -/
def chainIds (h : Heap T) : Nat → Option Nat → ESeq Nat
  | 0, _ => []
  | _ + 1, Option.none => []
  | fuel + 1, Option.some id =>
    match lookup h id with
    | Option.none => [id]
    | Option.some c => id :: chainIds h fuel c.next

/-- The element and successor of a node, without its reference count: the
part of a cell that `head`, `tail` and `Iter` can observe. -/
def viewNE (h : Heap T) (id : Nat) : Option (T × Option Nat) :=
  (lookup h id).map (fun c => (c.elem, c.next))

/-- A heap consisting of one chain of `n` nodes with identifiers
`s, s+1, ..., s+n-1`, each holding its identifier as element, linked in
increasing order, every count 1 (a single owning list): the shape of the
sequential-release stress scenario. -/
def chainCells (s : Nat) : Nat → Heap Nat
  | 0 => []
  | n + 1 =>
    (s, ⟨s, if n = 0 then Option.none else Option.some (s + 1), 1⟩)
      :: chainCells (s + 1) n

/-- The identifiers of the heap cells. -/
def keys (h : Heap T) : ESeq Nat := h.map (fun p => p.1)

/-- Number of owning references a collection of live list heads holds on
node `id`: one per head link equal to `id`. -/
def rootsCount : ESeq (Option Nat) → Nat → Nat
  | [], _ => 0
  | r :: rest, id =>
    (if r = Option.some id then 1 else 0) + rootsCount rest id

/-- Number of owning references the heap cells hold on node `id`: one per
cell whose successor link is `id`. -/
def cellsCount : Heap T → Nat → Nat
  | [], _ => 0
  | (_, c) :: rest, id =>
    (if c.next = Option.some id then 1 else 0) + cellsCount rest id

/-- Total number of owning references on node `id`, where `R` lists the
head links of every live list value: the strong count a correct `Rc` heap
stores for the node. -/
def refCount (h : Heap T) (R : ESeq (Option Nat)) (id : Nat) : Nat :=
  rootsCount R id + cellsCount h id

/-- Well-formed reference-counted heap for the live roots `R`: cell
identifiers are distinct and every stored strong count equals the number of
owning references — the invariant `Rc` maintains. Under it a deep node of a
shared suffix carries count 1 (owned only by its predecessor cell) while a
node referenced from two chains carries count at least 2. -/
def WF (h : Heap T) (R : ESeq (Option Nat)) : Prop :=
  (keys h).Nodup ∧ ∀ p ∈ h, p.2.rc = refCount h R p.1

instance (h : Heap T) (R : ESeq (Option Nat)) : Decidable (WF h R) :=
  inferInstanceAs
    (Decidable ((keys h).Nodup ∧ ∀ p ∈ h, p.2.rc = refCount h R p.1))

/-- Concrete sharing scenario: `L1 = [11, 10]`, `L2 = 12 :: L1`,
`L3 = 13 :: L1` — a shared suffix two nodes deep. The deep node 0 has
count 1 (owned only by node 1); the merge node 1 has count 3 (owned by the
`L1` head and by the cells of nodes 2 and 3). -/
def sharedHeap : Heap Nat :=
  [(0, ⟨10, Option.none, 1⟩), (1, ⟨11, Option.some 0, 3⟩),
   (2, ⟨12, Option.some 1, 1⟩), (3, ⟨13, Option.some 1, 1⟩)]

/-- The live roots of the sharing scenario other than the dropped `L2`:
the heads of `L3` (node 3) and `L1` (node 1). -/
def sharedRest : ESeq (Option Nat) := [Option.some 3, Option.some 1]

end Persistent


/-- The stack of good_stack.rs holding `1, 2, 3` pushed in that order, as in
the iterator tests. -/
def list123 : GoodStack.List Nat :=
  GoodStack.push (GoodStack.push (GoodStack.push GoodStack.new 1) 2) 3

namespace GoodStack

theorem toList_push (l : List T) (e : T) : toList (push l e) = e :: toList l :=
  rfl

theorem toList_new : toList (new : List T) = [] := rfl

theorem toList_pushAll (xs : ESeq T) :
    ∀ l : List T, toList (pushAll l xs) = xs.reverse ++ toList l := by
  induction xs with
  | nil => intro l; simp [pushAll]
  | cons x xs ih =>
    intro l
    have h1 : pushAll l (x :: xs) = pushAll (push l x) xs := rfl
    rw [h1, ih, toList_push]
    simp

theorem popN_new (k : Nat) :
    popN (new : List T) k = (List.replicate k Option.none, new) := by
  induction k with
  | zero => rfl
  | succ k ih =>
    show (Option.none :: (popN (new : List T) k).1, (popN (new : List T) k).2)
        = _
    rw [ih]
    rfl

theorem popN_spec (n : Nat) :
    ∀ (l : List T) (k : Nat), (toList l).length = n →
      popN l (n + k) =
        ((toList l).map Option.some ++ List.replicate k Option.none, new) := by
  induction n with
  | zero =>
    intro l k hlen
    cases l with
    | mk head =>
      cases head with
      | none => simpa [toList, linkToList, new] using popN_new (T := T) k
      | some node => cases node with
        | mk e next => simp [toList, linkToList] at hlen
  | succ n ih =>
    intro l k hlen
    cases l with
    | mk head =>
      cases head with
      | none => simp [toList, linkToList] at hlen
      | some node => cases node with
        | mk e next =>
          have hlen2 : (toList (⟨next⟩ : List T)).length = n := by
            simpa [toList, linkToList] using hlen
          have hstep : n + 1 + k = (n + k) + 1 := by omega
          rw [hstep]
          have hrec := ih (⟨next⟩ : List T) k hlen2
          show (Option.some e :: (popN (⟨next⟩ : List T) (n + k)).1,
                (popN (⟨next⟩ : List T) (n + k)).2) = _
          rw [hrec]
          simp [toList, linkToList]

end GoodStack

/-- Claim C1: pushing `x1..xn` in order on an empty exclusive stack and then
popping `n + 1` times yields `some xn, ..., some x1` followed by `none`
(and leaves the empty list). -/
theorem c1_lifo_order (T : Type) (xs : ESeq T) :
    GoodStack.popN (GoodStack.pushAll GoodStack.new xs) (xs.length + 1) =
      (xs.reverse.map Option.some ++ [Option.none], GoodStack.new) := by
  have hlen : (GoodStack.toList (GoodStack.pushAll GoodStack.new xs)).length
      = xs.length := by
    rw [GoodStack.toList_pushAll]
    simp [GoodStack.toList_new]
  have := GoodStack.popN_spec xs.length
    (GoodStack.pushAll GoodStack.new xs) 1 hlen
  rw [this]
  rw [GoodStack.toList_pushAll]
  simp [GoodStack.toList_new, List.replicate]

/-- Claim C7: on empty lists every absence-signalling operation returns the
empty result and nothing else: `pop`, `peek`, `peek_mut` of the empty
exclusive stack return `none` (with `pop` leaving the list empty), and
`head`/`tail` of the empty persistent list return `none` and the empty list
with the heap untouched. -/
theorem c7_empty_absence (T : Type) (h : Persistent.Heap T) :
    GoodStack.pop (GoodStack.new : GoodStack.List T)
        = (Option.none, GoodStack.new)
      ∧ GoodStack.peek (GoodStack.new : GoodStack.List T) = Option.none
      ∧ GoodStack.peek_mut (GoodStack.new : GoodStack.List T) = Option.none
      ∧ BadStack.pop BadStack.new = (Option.none, BadStack.new)
      ∧ Persistent.headOf h Persistent.new = Option.none
      ∧ Persistent.tail h Persistent.new = (h, Persistent.new) :=
  ⟨rfl, rfl, rfl, rfl, rfl, rfl⟩

/-- Claim C8: `peek` is non-destructive: it reports exactly the element the
immediately following `pop` returns (so a `some` answer from `peek` is the
next `pop` result), and being a read through `&self` it leaves the list
value untouched. -/
theorem c8_peek_nondestructive (T : Type) (l : GoodStack.List T) :
    (GoodStack.pop l).1 = GoodStack.peek l := by
  cases l with
  | mk head =>
    cases head with
    | none => rfl
    | some node => cases node with
      | mk e next => rfl

/-- Claim C9: writing `v` through the view returned by `peek_mut` on a
non-empty stack is observed by the following operations: `peek` returns `v`,
`pop` returns `v`, and the remainder of the list after that `pop` is exactly
what it would have been without the write. -/
theorem c9_peek_mut_roundtrip (T : Type) (l : GoodStack.List T) (v : T)
    (hne : l.head ≠ GoodStack.Link.none) :
    GoodStack.peek (GoodStack.peek_mut_write l v) = Option.some v
      ∧ (GoodStack.pop (GoodStack.peek_mut_write l v)).1 = Option.some v
      ∧ (GoodStack.pop (GoodStack.peek_mut_write l v)).2 = (GoodStack.pop l).2 := by
  cases l with
  | mk head =>
    cases head with
    | none => exact absurd rfl hne
    | some node => cases node with
      | mk e next => exact ⟨rfl, rfl, rfl⟩

/-- Witness for C9 at the stack `[1]` with write value `42`. -/
theorem c9_peek_mut_roundtrip_witness :
    GoodStack.peek
        (GoodStack.peek_mut_write (GoodStack.push GoodStack.new 1) 42)
      = Option.some 42 :=
  (c9_peek_mut_roundtrip Nat (GoodStack.push GoodStack.new 1) 42
    (by simp [GoodStack.push, GoodStack.new])).1

/-- Claim C6: on the stack holding `1, 2, 3` pushed in that order, the three
cursors `iter`, `iter_mut` and `into_iter` each produce `3, 2, 1` and then
end-of-sequence, and after `into_iter` is exhausted (three steps) the list it
owns is empty. -/
theorem c6_iterator_agreement :
    GoodStack.iterResults (GoodStack.iter list123) 4
        = [Option.some 3, Option.some 2, Option.some 1, Option.none]
      ∧ GoodStack.iterMutResults (GoodStack.iter_mut list123) 4
        = [Option.some 3, Option.some 2, Option.some 1, Option.none]
      ∧ GoodStack.intoIterResults (GoodStack.into_iter list123) 4
        = [Option.some 3, Option.some 2, Option.some 1, Option.none]
      ∧ (GoodStack.intoIterState (GoodStack.into_iter list123) 3).list
        = GoodStack.new :=
  ⟨rfl, rfl, rfl, rfl⟩

theorem linkToGood_toList (lnk : BadStack.Link) :
    GoodStack.linkToList (linkToGood lnk) = BadStack.linkToList lnk := by
  induction lnk using linkToGood.induct with
  | case1 => rfl
  | case2 e next ih =>
    simp [linkToGood, GoodStack.linkToList, BadStack.linkToList, ih]

theorem pop_toGood (b : BadStack.List) :
    GoodStack.pop (toGood b) = ((BadStack.pop b).1, toGood (BadStack.pop b).2) := by
  cases b with
  | mk head =>
    cases head with
    | Empty => rfl
    | More node => cases node with
      | mk e next => rfl

theorem runGood_toGood (ops : ESeq StackOp) :
    ∀ b : BadStack.List,
      runGood ops (toGood b) = ((runBad ops b).1, toGood (runBad ops b).2) := by
  induction ops with
  | nil => intro b; rfl
  | cons op ops ih =>
    intro b
    cases op with
    | push s =>
      have hpg : GoodStack.push (toGood b) s = toGood (BadStack.push b s) := rfl
      show runGood ops (GoodStack.push (toGood b) s) = _
      rw [hpg, ih]
      rfl
    | pop =>
      show ((GoodStack.pop (toGood b)).1
              :: (runGood ops (GoodStack.pop (toGood b)).2).1,
            (runGood ops (GoodStack.pop (toGood b)).2).2) = _
      rw [pop_toGood]
      show ((BadStack.pop b).1
              :: (runGood ops (toGood (BadStack.pop b).2)).1,
            (runGood ops (toGood (BadStack.pop b).2)).2) = _
      rw [ih]
      rfl

/-- Claim C10: the String-specialised stack of bad_stack.rs and the generic
stack of good_stack.rs instantiated at `String` are behaviourally
equivalent: any sequence of push/pop operations run from the two empty lists
produces identical pop results and element-wise identical final lists. -/
theorem c10_stack_equivalence (ops : ESeq StackOp) :
    (runGood ops GoodStack.new).1 = (runBad ops BadStack.new).1
      ∧ GoodStack.toList (runGood ops GoodStack.new).2
        = BadStack.toList (runBad ops BadStack.new).2 := by
  have hnew : (GoodStack.new : GoodStack.List String) = toGood BadStack.new := rfl
  constructor
  · rw [hnew, runGood_toGood]
  · rw [hnew, runGood_toGood]
    exact linkToGood_toList (runBad ops BadStack.new).2.head

namespace GoodStack

theorem dropLoop_eq (cur : Link T) (freed : Nat) :
    dropLoop cur freed = (linkToList cur).length + freed := by
  induction cur, freed using dropLoop.induct with
  | case1 freed => simp [dropLoop, linkToList]
  | case2 freed e next ih =>
    simp [dropLoop, linkToList, ih]
    omega

theorem dropCount_eq (l : List T) : dropCount l = (toList l).length := by
  simp [dropCount, toList, dropLoop_eq]

end GoodStack

namespace Persistent

theorem lookup_chainCells_lt (n : Nat) :
    ∀ s k : Nat, k < s → lookup (chainCells s n) k = Option.none := by
  induction n with
  | zero => intro s k _; rfl
  | succ n ih =>
    intro s k hk
    have hne : ¬ (s = k) := by omega
    simp [chainCells, lookup, hne]
    exact ih (s + 1) k (by omega)

theorem erase_of_lookup_none (h : Heap T) (k : Nat) :
    lookup h k = Option.none → erase h k = h := by
  induction h with
  | nil => intro _; rfl
  | cons p rest ih =>
    intro hl
    obtain ⟨pk, pc⟩ := p
    by_cases hpk : pk = k
    · simp [lookup, hpk] at hl
    · simp [lookup, hpk] at hl
      simp [erase, hpk, ih hl]

theorem dropLoop_chainCells (n : Nat) :
    ∀ s : Nat, dropLoop n (chainCells s n) (Option.some s) = [] := by
  induction n with
  | zero => intro s; rfl
  | succ n ih =>
    intro s
    have hlk : lookup (chainCells s (n + 1)) s
        = Option.some ⟨s, if n = 0 then Option.none else Option.some (s + 1), 1⟩ := by
      simp [chainCells, lookup]
    have hrest : erase (chainCells (s + 1) n) s = chainCells (s + 1) n :=
      erase_of_lookup_none _ _ (lookup_chainCells_lt n (s + 1) s (by omega))
    show dropLoop (n + 1) (chainCells s (n + 1)) (Option.some s) = []
    rw [dropLoop, hlk]
    simp only [chainCells, erase, if_pos rfl, hrest]
    cases n with
    | zero => rfl
    | succ m =>
      simp only [Nat.succ_ne_zero, if_neg]
      simpa using ih (s + 1)

end Persistent

/-- Claim C2: destruction is a terminating iterative loop that releases
every node. For the exclusive stack, the drop loop of good_stack.rs — one
unlink-and-release per iteration, no recursive descent — releases exactly as
many nodes as the list holds, in particular all 10^5 nodes of a 10^5-element
stack. For the persistent list, when every count in the chain is 1 (each
count of each node drops to zero sequentially) the drop loop empties the heap,
in particular for a 10^5-node chain with fuel 10^5 (one loop iteration per
node, so the iteration count — not any call stack — carries the length). -/
theorem c2_iterative_drop :
    (∀ (T : Type) (l : GoodStack.List T),
        GoodStack.dropCount l = (GoodStack.toList l).length)
      ∧ GoodStack.dropCount
          (GoodStack.pushAll GoodStack.new (List.range 100000)) = 100000
      ∧ (∀ n s : Nat,
          Persistent.dropLoop n (Persistent.chainCells s n) (Option.some s) = [])
      ∧ Persistent.dropLoop 100000 (Persistent.chainCells 0 100000)
          (Option.some 0) = [] := by
  refine ⟨fun T l => GoodStack.dropCount_eq l, ?_,
    fun n s => Persistent.dropLoop_chainCells n s,
    Persistent.dropLoop_chainCells 100000 0⟩
  rw [GoodStack.dropCount_eq, GoodStack.toList_pushAll]
  simp [GoodStack.toList_new]

namespace Persistent

variable {T : Type}

theorem lookup_mem (h : Heap T) (id : Nat) (c : Cell T) :
    lookup h id = Option.some c → (id, c) ∈ h := by
  induction h with
  | nil => intro hl; simp [lookup] at hl
  | cons p rest ih =>
    intro hl
    obtain ⟨pk, pc⟩ := p
    by_cases hpk : pk = id
    · subst hpk
      simp [lookup] at hl
      simp [hl]
    · simp [lookup, hpk] at hl
      exact List.mem_cons_of_mem _ (ih hl)

theorem lookup_erase (h : Heap T) (k id : Nat) :
    lookup (erase h k) id = if id = k then Option.none else lookup h id := by
  induction h with
  | nil => simp [erase, lookup]
  | cons p rest ih =>
    obtain ⟨pk, pc⟩ := p
    by_cases hpk : pk = k
    · have he : erase ((pk, pc) :: rest) k = erase rest k := by
        simp [erase, hpk]
      rw [he, ih]
      by_cases hid : id = k
      · rw [if_pos hid, if_pos hid]
      · rw [if_neg hid, if_neg hid]
        have hpid : ¬ (pk = id) := by omega
        simp [lookup, hpid]
    · have he : erase ((pk, pc) :: rest) k = (pk, pc) :: erase rest k := by
        simp [erase, hpk]
      rw [he]
      by_cases hid : pk = id
      · have h2 : ¬ (id = k) := by omega
        simp [lookup, hid, h2]
      · simp [lookup, hid, ih]

theorem lookup_decRc (h : Heap T) (k id : Nat) :
    lookup (decRc h k) id
      = if id = k
        then (lookup h id).map (fun c => ⟨c.elem, c.next, c.rc - 1⟩)
        else lookup h id := by
  induction h with
  | nil => simp [decRc, lookup]
  | cons p rest ih =>
    obtain ⟨pk, pc⟩ := p
    by_cases hpk : pk = k
    · have he : decRc ((pk, pc) :: rest) k
          = (pk, ⟨pc.elem, pc.next, pc.rc - 1⟩) :: decRc rest k := by
        simp [decRc, hpk]
      rw [he]
      by_cases hid : pk = id
      · have h1 : id = k := by omega
        simp [lookup, hid, h1]
      · have h1 : ¬ (id = k) := by omega
        simp [lookup, hid, h1, ih]
    · have he : decRc ((pk, pc) :: rest) k = (pk, pc) :: decRc rest k := by
        simp [decRc, hpk]
      rw [he]
      by_cases hid : pk = id
      · have h1 : ¬ (id = k) := by omega
        simp [lookup, hid, h1]
      · simp [lookup, hid, ih]

theorem lookup_incRcAt (h : Heap T) (k id : Nat) :
    lookup (incRcAt h k) id
      = if id = k
        then (lookup h id).map (fun c => ⟨c.elem, c.next, c.rc + 1⟩)
        else lookup h id := by
  induction h with
  | nil => simp [incRcAt, lookup]
  | cons p rest ih =>
    obtain ⟨pk, pc⟩ := p
    by_cases hpk : pk = k
    · have he : incRcAt ((pk, pc) :: rest) k
          = (pk, ⟨pc.elem, pc.next, pc.rc + 1⟩) :: incRcAt rest k := by
        simp [incRcAt, hpk]
      rw [he]
      by_cases hid : pk = id
      · have h1 : id = k := by omega
        simp [lookup, hid, h1]
      · have h1 : ¬ (id = k) := by omega
        simp [lookup, hid, h1, ih]
    · have he : incRcAt ((pk, pc) :: rest) k = (pk, pc) :: incRcAt rest k := by
        simp [incRcAt, hpk]
      rw [he]
      by_cases hid : pk = id
      · have h1 : ¬ (id = k) := by omega
        simp [lookup, hid, h1]
      · simp [lookup, hid, ih]

theorem viewNE_decRc (h : Heap T) (k id : Nat) :
    viewNE (decRc h k) id = viewNE h id := by
  by_cases hid : id = k
  · simp only [viewNE, lookup_decRc, hid, if_pos rfl]
    cases lookup h k <;> rfl
  · simp [viewNE, lookup_decRc, hid]

theorem viewNE_incRcAt (h : Heap T) (k id : Nat) :
    viewNE (incRcAt h k) id = viewNE h id := by
  by_cases hid : id = k
  · simp only [viewNE, lookup_incRcAt, hid, if_pos rfl]
    cases lookup h k <;> rfl
  · simp [viewNE, lookup_incRcAt, hid]

theorem viewNE_incRc (h : Heap T) (x : Option Nat) (id : Nat) :
    viewNE (incRc h x) id = viewNE h id := by
  cases x with
  | none => rfl
  | some k => exact viewNE_incRcAt h k id

theorem readChain_congr_on (h h2 : Heap T) :
    ∀ (g : Nat) (s : Option Nat),
      (∀ id, id ∈ chainIds h g s → viewNE h2 id = viewNE h id) →
      readChain h2 g s = readChain h g s := by
  intro g
  induction g with
  | zero => intro s _; rfl
  | succ g ih =>
    intro s hv
    cases s with
    | none => rfl
    | some id =>
      have hid : id ∈ chainIds h (g + 1) (Option.some id) := by
        cases hl : lookup h id <;> simp [chainIds, hl]
      have hveq := hv id hid
      cases hl : lookup h id with
      | none =>
        have hl2 : lookup h2 id = Option.none := by
          simp [viewNE, hl] at hveq
          cases hx : lookup h2 id with
          | none => rfl
          | some c2 => rw [hx] at hveq; simp at hveq
        simp [readChain, hl, hl2]
      | some c =>
        have hl2 : ∃ c2, lookup h2 id = Option.some c2
            ∧ c2.elem = c.elem ∧ c2.next = c.next := by
          simp [viewNE, hl] at hveq
          cases hx : lookup h2 id with
          | none => rw [hx] at hveq; simp at hveq
          | some c2 =>
            rw [hx] at hveq
            simp at hveq
            exact ⟨c2, rfl, hveq.1, hveq.2⟩
        obtain ⟨c2, hx, he, hn⟩ := hl2
        have hrec : readChain h2 g c.next = readChain h g c.next := by
          apply ih
          intro j hj
          apply hv
          simp [chainIds, hl]
          exact Or.inr hj
        simp [readChain, hl, hx, he, hn, hrec]

theorem dropLoop_erased :
    ∀ (fuel : Nat) (h : Heap T) (s : Option Nat) (id : Nat) (c : Cell T),
      lookup h id = Option.some c →
      lookup (dropLoop fuel h s) id = Option.none → c.rc = 1 := by
  intro fuel
  induction fuel with
  | zero =>
    intro h s id c hl hd
    simp only [dropLoop] at hd
    rw [hd] at hl
    simp at hl
  | succ fuel ih =>
    intro h s id c hl hd
    cases s with
    | none =>
      simp only [dropLoop] at hd
      rw [hd] at hl
      simp at hl
    | some id0 =>
      cases hl0 : lookup h id0 with
      | none =>
        simp only [dropLoop, hl0] at hd
        rw [hd] at hl
        simp at hl
      | some c0 =>
        by_cases hrc : c0.rc = 1
        · by_cases hid : id = id0
          · subst hid
            rw [hl] at hl0
            injection hl0 with hcc
            rw [hcc]; exact hrc
          · have hstep : dropLoop (fuel + 1) h (Option.some id0)
                = dropLoop fuel (erase h id0) c0.next := by
              simp [dropLoop, hl0, hrc]
            rw [hstep] at hd
            have hl2 : lookup (erase h id0) id = Option.some c := by
              rw [lookup_erase]
              simp [hid, hl]
            exact ih (erase h id0) c0.next id c hl2 hd
        · have hstep : dropLoop (fuel + 1) h (Option.some id0)
              = decRc h id0 := by
            simp [dropLoop, hl0, hrc]
          rw [hstep, lookup_decRc] at hd
          by_cases hid : id = id0
          · rw [if_pos hid, hid, hl0] at hd
            simp at hd
          · rw [if_neg hid] at hd
            rw [hd] at hl
            simp at hl

theorem headOf_readChain (h : Heap T) (l : List T) (g : Nat) :
    (readChain h (g + 1) l.head).head? = headOf h l := by
  obtain ⟨hd⟩ := l
  cases hd with
  | none => rfl
  | some id =>
    cases hl : lookup h id with
    | none => simp [readChain, headOf, hl]
    | some c => simp [readChain, headOf, hl]

theorem chainIds_avoid (h : Heap T) (fresh : Nat)
    (href : ∀ p ∈ h, p.2.next ≠ Option.some fresh) :
    ∀ (g : Nat) (s : Option Nat), s ≠ Option.some fresh →
      fresh ∉ chainIds h g s := by
  intro g
  induction g with
  | zero => intro s _; simp [chainIds]
  | succ g ih =>
    intro s hs
    cases s with
    | none => simp [chainIds]
    | some id =>
      have hidf : ¬ (fresh = id) := by
        intro hh
        exact hs (by rw [hh])
      cases hl : lookup h id with
      | none => simp [chainIds, hl, hidf]
      | some c =>
        have hcnext : c.next ≠ Option.some fresh :=
          href (id, c) (lookup_mem h id c hl)
        simp only [chainIds, hl, List.mem_cons]
        push_neg
        exact ⟨hidf, ih c.next hcnext⟩

theorem lookup_eq_none_of_not_mem (h : Heap T) (id : Nat)
    (hid : id ∉ keys h) : lookup h id = Option.none := by
  induction h with
  | nil => rfl
  | cons p rest ih =>
    obtain ⟨pk, pc⟩ := p
    simp only [keys, List.map_cons, List.mem_cons] at hid
    push_neg at hid
    have hne : ¬ (pk = id) := fun hh => hid.1 hh.symm
    simp only [lookup, if_neg hne]
    exact ih hid.2

theorem mem_erase (h : Heap T) (k : Nat) (p : Nat × Cell T) :
    p ∈ erase h k → p ∈ h ∧ p.1 ≠ k := by
  induction h with
  | nil => intro hp; simp [erase] at hp
  | cons q rest ih =>
    obtain ⟨qk, qc⟩ := q
    intro hp
    by_cases hqk : qk = k
    · have hp2 : p ∈ erase rest k := by simpa [erase, hqk] using hp
      obtain ⟨h1, h2⟩ := ih hp2
      exact ⟨List.mem_cons_of_mem _ h1, h2⟩
    · rw [show erase ((qk, qc) :: rest) k = (qk, qc) :: erase rest k from by
        simp [erase, hqk]] at hp
      rcases List.mem_cons.mp hp with rfl | hp2
      · exact ⟨List.mem_cons_self _ _, hqk⟩
      · obtain ⟨h1, h2⟩ := ih hp2
        exact ⟨List.mem_cons_of_mem _ h1, h2⟩

theorem erase_sublist (h : Heap T) (k : Nat) : List.Sublist (erase h k) h := by
  induction h with
  | nil => simp [erase]
  | cons q rest ih =>
    obtain ⟨qk, qc⟩ := q
    by_cases hqk : qk = k
    · rw [show erase ((qk, qc) :: rest) k = erase rest k from by
        simp [erase, hqk]]
      exact List.Sublist.cons _ ih
    · rw [show erase ((qk, qc) :: rest) k = (qk, qc) :: erase rest k from by
        simp [erase, hqk]]
      exact List.Sublist.cons₂ _ ih

theorem keys_nodup_erase (h : Heap T) (k : Nat) (hnd : (keys h).Nodup) :
    (keys (erase h k)).Nodup :=
  List.Nodup.sublist (List.Sublist.map _ (erase_sublist h k)) hnd

theorem cellsCount_erase (h : Heap T) (k : Nat) (c : Cell T)
    (hnd : (keys h).Nodup) (hl : lookup h k = Option.some c) (x : Nat) :
    cellsCount h x
      = cellsCount (erase h k) x
        + (if c.next = Option.some x then 1 else 0) := by
  induction h with
  | nil => simp [lookup] at hl
  | cons q rest ih =>
    obtain ⟨qk, qc⟩ := q
    have hnds := List.nodup_cons.mp hnd
    by_cases hqk : qk = k
    · have hc : qc = c := by
        simpa [lookup, hqk] using hl
      have herase : erase rest k = rest :=
        erase_of_lookup_none rest k
          (lookup_eq_none_of_not_mem rest k (hqk ▸ hnds.1))
      rw [show erase ((qk, qc) :: rest) k = erase rest k from by
          simp [erase, hqk],
        herase,
        show cellsCount ((qk, qc) :: rest) x
          = (if qc.next = Option.some x then 1 else 0) + cellsCount rest x
          from rfl,
        hc]
      omega
    · have hl2 : lookup rest k = Option.some c := by
        simpa [lookup, hqk] using hl
      rw [show erase ((qk, qc) :: rest) k = (qk, qc) :: erase rest k from by
          simp [erase, hqk],
        show cellsCount ((qk, qc) :: rest) x
          = (if qc.next = Option.some x then 1 else 0) + cellsCount rest x
          from rfl,
        show cellsCount ((qk, qc) :: erase rest k) x
          = (if qc.next = Option.some x then 1 else 0)
            + cellsCount (erase rest k) x from rfl,
        ih hnds.2 hl2]
      omega

theorem rootsCount_pos (R : ESeq (Option Nat)) (id : Nat) (r : Option Nat)
    (hr : r ∈ R) (heq : r = Option.some id) : 1 ≤ rootsCount R id := by
  induction R with
  | nil => simp at hr
  | cons r0 rest ih =>
    rcases List.mem_cons.mp hr with heq0 | hr2
    · have h0 : r0 = Option.some id := heq0 ▸ heq
      rw [show rootsCount (r0 :: rest) id
          = (if r0 = Option.some id then 1 else 0) + rootsCount rest id
          from rfl,
        if_pos h0]
      omega
    · have h1 := ih hr2
      rw [show rootsCount (r0 :: rest) id
          = (if r0 = Option.some id then 1 else 0) + rootsCount rest id
          from rfl]
      omega

theorem cellsCount_pos (h : Heap T) (id : Nat) (p : Nat × Cell T)
    (hp : p ∈ h) (hnext : p.2.next = Option.some id) :
    1 ≤ cellsCount h id := by
  induction h with
  | nil => simp at hp
  | cons q rest ih =>
    obtain ⟨qk, qc⟩ := q
    rcases List.mem_cons.mp hp with rfl | hp2
    · rw [show cellsCount ((qk, qc) :: rest) id
          = (if qc.next = Option.some id then 1 else 0) + cellsCount rest id
          from rfl,
        if_pos hnext]
      omega
    · have h1 := ih hp2
      rw [show cellsCount ((qk, qc) :: rest) id
          = (if qc.next = Option.some id then 1 else 0) + cellsCount rest id
          from rfl]
      omega

theorem chainIds_ref (h : Heap T) :
    ∀ (g : Nat) (s : Option Nat) (id : Nat), id ∈ chainIds h g s →
      s = Option.some id
        ∨ ∃ k c, lookup h k = Option.some c ∧ c.next = Option.some id := by
  intro g
  induction g with
  | zero => intro s id hid; simp [chainIds] at hid
  | succ g ih =>
    intro s id hid
    cases s with
    | none => simp [chainIds] at hid
    | some k =>
      cases hl : lookup h k with
      | none =>
        simp [chainIds, hl] at hid
        left
        rw [hid]
      | some c =>
        simp [chainIds, hl] at hid
        rcases hid with rfl | hid2
        · exact Or.inl rfl
        · rcases ih c.next id hid2 with hs | hex
          · exact Or.inr ⟨k, c, hl, hs⟩
          · exact Or.inr hex

theorem chainIds_erase_eq (h : Heap T) (k : Nat) :
    ∀ (g : Nat) (s : Option Nat), k ∉ chainIds h g s →
      chainIds (erase h k) g s = chainIds h g s := by
  intro g
  induction g with
  | zero => intro s _; rfl
  | succ g ih =>
    intro s hk
    cases s with
    | none => rfl
    | some j =>
      have hjk : ¬ (j = k) := by
        intro hh
        subst hh
        exact hk (by cases hl : lookup h j <;> simp [chainIds, hl])
      have hlk : lookup (erase h k) j = lookup h j := by
        rw [lookup_erase, if_neg hjk]
      cases hl : lookup h j with
      | none => simp [chainIds, hlk, hl]
      | some c =>
        have hk2 : k ∉ chainIds h g c.next := by
          intro hh
          apply hk
          simp [chainIds, hl]
          exact Or.inr hh
        simp [chainIds, hlk, hl, ih c.next hk2]

theorem dropLoop_wf_frame :
    ∀ (fuel : Nat) (h : Heap T) (s : Option Nat) (rest : ESeq (Option Nat)),
      WF h (s :: rest) →
      ∀ r, r ∈ rest → ∀ (g : Nat) (id : Nat), id ∈ chainIds h g r →
        viewNE (dropLoop fuel h s) id = viewNE h id := by
  intro fuel
  induction fuel with
  | zero => intro h s rest _ r _ g id _; rfl
  | succ fuel ih =>
    intro h s rest hwf r hr g id hid
    cases s with
    | none => rfl
    | some id0 =>
      cases hl : lookup h id0 with
      | none => simp [dropLoop, hl]
      | some c =>
        by_cases hrc : c.rc = 1
        · -- last owner: the walk frees id0, which nothing else references
          have hrc0 : c.rc = refCount h (Option.some id0 :: rest) id0 :=
            hwf.2 (id0, c) (lookup_mem h id0 c hl)
          have hsum : refCount h (Option.some id0 :: rest) id0
              = 1 + (rootsCount rest id0 + cellsCount h id0) := by
            rw [show refCount h (Option.some id0 :: rest) id0
                = rootsCount (Option.some id0 :: rest) id0 + cellsCount h id0
                from rfl,
              show rootsCount (Option.some id0 :: rest) id0
                = (if Option.some id0 = Option.some id0 then 1 else 0)
                  + rootsCount rest id0 from rfl,
              if_pos rfl]
            omega
          have hz1 : rootsCount rest id0 = 0 := by omega
          have hz2 : cellsCount h id0 = 0 := by omega
          have hnotin : id0 ∉ chainIds h g r := by
            intro hmem
            rcases chainIds_ref h g r id0 hmem with hs | ⟨k, c2, hk, hnext⟩
            · have := rootsCount_pos rest id0 r hr hs
              omega
            · have := cellsCount_pos h id0 (k, c2) (lookup_mem h k c2 hk) hnext
              omega
          have hne : id ≠ id0 := fun heq => hnotin (heq ▸ hid)
          have hwf2 : WF (erase h id0) (c.next :: rest) := by
            refine ⟨keys_nodup_erase h id0 hwf.1, ?_⟩
            intro p hp
            obtain ⟨hpmem, hpk⟩ := mem_erase h id0 p hp
            have hold : p.2.rc = refCount h (Option.some id0 :: rest) p.1 :=
              hwf.2 p hpmem
            have hold2 : p.2.rc
                = rootsCount (Option.some id0 :: rest) p.1 + cellsCount h p.1 :=
              hold
            have hne2 : ¬ (Option.some id0 = Option.some p.1) :=
              fun hh => hpk (Option.some.inj hh).symm
            rw [show rootsCount (Option.some id0 :: rest) p.1
                = (if Option.some id0 = Option.some p.1 then 1 else 0)
                  + rootsCount rest p.1 from rfl,
              if_neg hne2] at hold2
            have hcc := cellsCount_erase h id0 c hwf.1 hl p.1
            show p.2.rc
              = rootsCount (c.next :: rest) p.1 + cellsCount (erase h id0) p.1
            rw [show rootsCount (c.next :: rest) p.1
                = (if c.next = Option.some p.1 then 1 else 0)
                  + rootsCount rest p.1 from rfl]
            omega
          have htrans : chainIds (erase h id0) g r = chainIds h g r :=
            chainIds_erase_eq h id0 g r hnotin
          have hid2 : id ∈ chainIds (erase h id0) g r := by
            rw [htrans]; exact hid
          have hstep : dropLoop (fuel + 1) h (Option.some id0)
              = dropLoop fuel (erase h id0) c.next := by
            simp [dropLoop, hl, hrc]
          rw [hstep, ih (erase h id0) c.next rest hwf2 r hr g id hid2]
          simp [viewNE, lookup_erase, hne]
        · -- not the last owner: decrement the count and stop
          have hstep : dropLoop (fuel + 1) h (Option.some id0)
              = decRc h id0 := by
            simp [dropLoop, hl, hrc]
          rw [hstep, viewNE_decRc]

end Persistent

/-- Claim C3: dropping a persistent list value `A` over a well-formed
reference-counted heap — `WF` states that every stored strong count equals
the number of owning references from the live list heads (`A.head` together
with `rest`, the heads of every other live list) and from node successor
links, exactly the invariant `Rc` maintains — (i) frees a node only when
the released count was the last owner (every node the drop removes had
count 1), and (ii) stops before touching anything another list reaches:
the element sequence read through every surviving list head, and the `head`
observation of every surviving list, are unchanged — for shared suffixes of
any depth, including deep suffix nodes whose own count is 1. -/
theorem c3_drop_shared_suffix (T : Type) (f g : Nat) (h : Persistent.Heap T)
    (A : Persistent.List T) (rest : ESeq (Option Nat))
    (hwf : Persistent.WF h (A.head :: rest)) :
    (∀ id c, Persistent.lookup h id = Option.some c →
        Persistent.lookup (Persistent.dropList f h A) id = Option.none →
        c.rc = 1)
      ∧ (∀ r, r ∈ rest →
          Persistent.readChain (Persistent.dropList f h A) g r
            = Persistent.readChain h g r)
      ∧ (∀ B : Persistent.List T, B.head ∈ rest →
          Persistent.headOf (Persistent.dropList f h A) B
            = Persistent.headOf h B) := by
  refine ⟨?_, ?_, ?_⟩
  · intro id c hl hd
    exact Persistent.dropLoop_erased f h A.head id c hl hd
  · intro r hr
    exact Persistent.readChain_congr_on h _ g r
      (fun id hid => Persistent.dropLoop_wf_frame f h A.head rest hwf r hr g id hid)
  · intro B hB
    have hr1 : Persistent.readChain (Persistent.dropList f h A) 1 B.head
        = Persistent.readChain h 1 B.head :=
      Persistent.readChain_congr_on h _ 1 B.head
        (fun id hid =>
          Persistent.dropLoop_wf_frame f h A.head rest hwf B.head hB 1 id hid)
    rw [← Persistent.headOf_readChain (Persistent.dropList f h A) B 0,
      ← Persistent.headOf_readChain h B 0, hr1]

/-- Witness for C3 on the two-deep shared suffix `sharedHeap` (`L2 = [12,
11, 10]` dropped, `L3 = [13, 11, 10]` surviving, deep node 0 of the shared
suffix having count 1): the survivor reads the same sequence afterward. -/
theorem c3_drop_shared_suffix_witness :
    Persistent.readChain
        (Persistent.dropList 4 Persistent.sharedHeap ⟨Option.some 2⟩)
        3 (Option.some 3)
      = Persistent.readChain Persistent.sharedHeap 3 (Option.some 3) :=
  (c3_drop_shared_suffix Nat 4 3 Persistent.sharedHeap ⟨Option.some 2⟩
    Persistent.sharedRest (by decide)).2.1 (Option.some 3) (by decide)

/-- Claim C4: `prepend` returns a new list headed by a fresh node that holds
the element and a shared reference to the receiver head; the receiver is
unmodified — its readable element sequence is exactly what it was — and the
new list reads as the element followed by the receiver sequence. `fresh` is
the identifier of the new allocation: unreferenced in the heap and distinct
from the receiver head. -/
theorem c4_prepend_functional (T : Type) (h : Persistent.Heap T)
    (l : Persistent.List T) (e : T) (fresh : Nat) (g : Nat)
    (href : ∀ p ∈ h, p.2.next ≠ Option.some fresh)
    (hhead : l.head ≠ Option.some fresh) :
    (Persistent.prepend h l e fresh).2.head = Option.some fresh
      ∧ Persistent.lookup (Persistent.prepend h l e fresh).1 fresh
          = Option.some ⟨e, l.head, 1⟩
      ∧ Persistent.readChain (Persistent.prepend h l e fresh).1 g l.head
          = Persistent.readChain h g l.head
      ∧ Persistent.readChain (Persistent.prepend h l e fresh).1 (g + 1)
          (Option.some fresh)
          = e :: Persistent.readChain h g l.head := by
  have havoid : fresh ∉ Persistent.chainIds h g l.head :=
    Persistent.chainIds_avoid h fresh href g l.head hhead
  have hview : ∀ id, id ∈ Persistent.chainIds h g l.head →
      Persistent.viewNE (Persistent.prepend h l e fresh).1 id
        = Persistent.viewNE h id := by
    intro id hid
    have hne : ¬ (fresh = id) := fun hh => havoid (hh ▸ hid)
    show Persistent.viewNE
        ((fresh, ⟨e, l.head, 1⟩) :: Persistent.incRc h l.head) id
      = Persistent.viewNE h id
    rw [show Persistent.viewNE
          ((fresh, ⟨e, l.head, 1⟩) :: Persistent.incRc h l.head) id
        = Persistent.viewNE (Persistent.incRc h l.head) id from by
      simp [Persistent.viewNE, Persistent.lookup, hne]]
    exact Persistent.viewNE_incRc h l.head id
  have hread : Persistent.readChain (Persistent.prepend h l e fresh).1 g l.head
      = Persistent.readChain h g l.head :=
    Persistent.readChain_congr_on h _ g l.head hview
  refine ⟨rfl, ?_, hread, ?_⟩
  · show Persistent.lookup
        ((fresh, ⟨e, l.head, 1⟩) :: Persistent.incRc h l.head) fresh
      = Option.some ⟨e, l.head, 1⟩
    simp [Persistent.lookup]
  · show Persistent.readChain (Persistent.prepend h l e fresh).1 (g + 1)
        (Option.some fresh) = e :: Persistent.readChain h g l.head
    have hlf : Persistent.lookup (Persistent.prepend h l e fresh).1 fresh
        = Option.some ⟨e, l.head, 1⟩ := by
      simp [Persistent.prepend, Persistent.lookup]
    rw [show Persistent.readChain (Persistent.prepend h l e fresh).1 (g + 1)
          (Option.some fresh)
        = e :: Persistent.readChain (Persistent.prepend h l e fresh).1 g l.head
      from by simp [Persistent.readChain, hlf]]
    rw [hread]

/-- Witness for C4 at the one-cell heap `[0 holding 5]`, receiver `[0]`,
element 7, fresh identifier 1. -/
theorem c4_prepend_functional_witness :
    Persistent.readChain
        (Persistent.prepend
          ([(0, ⟨5, Option.none, 1⟩)] : Persistent.Heap Nat)
          ⟨Option.some 0⟩ 7 1).1
        2 (Option.some 1)
      = [7, 5] := by
  have := (c4_prepend_functional Nat
    ([(0, ⟨5, Option.none, 1⟩)] : Persistent.Heap Nat)
    ⟨Option.some 0⟩ 7 1 1
    (by intro p hp; simp at hp; simp [hp])
    (by simp)).2.2.2
  rw [this]
  simp [Persistent.readChain, Persistent.lookup]

/-- Claim C5: `tail` returns a new list referencing the second node onward
of the receiver — the successor link of the receiver head node, hence the
empty list when the receiver has no or one node — without modifying the
receiver, whose readable sequence is unchanged; on the empty list, `tail`
returns the empty list and the untouched heap, so repeated `tail` calls on
an empty list stay empty and never fault. -/
theorem c5_tail_nondestructive (T : Type) (h : Persistent.Heap T)
    (l : Persistent.List T) (g : Nat) :
    (∀ id c, l.head = Option.some id →
        Persistent.lookup h id = Option.some c →
        (Persistent.tail h l).2.head = c.next)
      ∧ Persistent.readChain (Persistent.tail h l).1 g l.head
          = Persistent.readChain h g l.head
      ∧ (∀ id c, l.head = Option.some id →
          Persistent.lookup h id = Option.some c → c.next = Option.none →
          (Persistent.tail h l).2 = Persistent.new)
      ∧ Persistent.tail h Persistent.new = (h, Persistent.new) := by
  refine ⟨?_, ?_, ?_, rfl⟩
  · intro id c h1 h2
    simp [Persistent.tail, h1, h2]
  · obtain ⟨hd⟩ := l
    cases hd with
    | none => rfl
    | some id =>
      cases hl : Persistent.lookup h id with
      | none => simp [Persistent.tail, hl]
      | some c =>
        have hheap : (Persistent.tail h ⟨Option.some id⟩).1
            = Persistent.incRc h c.next := by
          simp [Persistent.tail, hl]
        rw [hheap]
        exact Persistent.readChain_congr_on h _ g (Option.some id)
          (fun j _ => Persistent.viewNE_incRc h c.next j)
  · intro id c h1 h2 h3
    simp [Persistent.tail, h1, h2, h3, Persistent.new]

/-- Witness for C5 at the two-cell heap `1 :: 2` with receiver headed at
node 0: the tail references node 1, the second node onward. -/
theorem c5_tail_nondestructive_witness :
    (Persistent.tail
        ([(0, ⟨1, Option.some 1, 1⟩), (1, ⟨2, Option.none, 2⟩)] :
          Persistent.Heap Nat)
        ⟨Option.some 0⟩).2.head = Option.some 1 :=
  (c5_tail_nondestructive Nat
    ([(0, ⟨1, Option.some 1, 1⟩), (1, ⟨2, Option.none, 2⟩)] :
      Persistent.Heap Nat)
    ⟨Option.some 0⟩ 2).1 0 ⟨1, Option.some 1, 1⟩ rfl
    (by simp [Persistent.lookup])
